import Mathlib

/-!
Shallow embedding of the camera-driven frame loop of `src/main.rs`
(a miniquad/cgmath first-person demo).

Modelling conventions:
* `f32` scalars are modelled as real numbers `ℝ`.
* `cgmath::Point3<f32>` / `Vector3<f32>` are `Fin 3 → ℝ`.
* `cgmath::Matrix4<f32>` is `Matrix (Fin 4) (Fin 4) ℝ`; cgmath stores
  matrices column-major, here they appear as ordinary mathematical
  matrices (row index first), with each cgmath constructor transcribed
  accordingly.
* `HashSet<KeyCode>` is `Finset KeyCode`.
* GPU handles (`pipeline`, `bindings`, `ctx`) and the timestamp
  `last_frame` are external resources: the elapsed time consumed in
  `update` becomes an explicit nonnegative parameter `dt`, and the GPU
  fields are dropped from the state.
* The external side effect `window::quit()` is modelled by a counter
  `quit_signals` that the embedded handler increments.
* `Matrix4::invert` (which returns `None` when the determinant vanishes,
  `Some` of the inverse otherwise) is modelled by `matInvert` below, and
  the `.unwrap()` in `Stage::update` makes the embedded `update` return
  `Option Stage`.
-/

open Real

open Classical in
/-- Model of `cgmath::Matrix4::invert`: `None` when the determinant is not
invertible, otherwise the matrix inverse. -/
noncomputable def matInvert (m : Matrix (Fin 4) (Fin 4) ℝ) :
    Option (Matrix (Fin 4) (Fin 4) ℝ) :=
  if IsUnit m.det then some m⁻¹ else none

/-- Model of `cgmath::Matrix3::from_angle_x` (rotation about the x axis). -/
noncomputable def from_angle_x (θ : ℝ) : Matrix (Fin 3) (Fin 3) ℝ :=
  !![1, 0, 0;
     0, Real.cos θ, -Real.sin θ;
     0, Real.sin θ, Real.cos θ]

/-- Model of `cgmath::Matrix3::from_angle_y` (rotation about the y axis). -/
noncomputable def from_angle_y (θ : ℝ) : Matrix (Fin 3) (Fin 3) ℝ :=
  !![Real.cos θ, 0, Real.sin θ;
     0, 1, 0;
     -Real.sin θ, 0, Real.cos θ]

/-- Model of the `Matrix3 → Matrix4` conversion (`rotate.into()`): the 3×3
block is placed top-left, padded with the affine row and column. -/
def mat3to4 (m : Matrix (Fin 3) (Fin 3) ℝ) : Matrix (Fin 4) (Fin 4) ℝ :=
  !![m 0 0, m 0 1, m 0 2, 0;
     m 1 0, m 1 1, m 1 2, 0;
     m 2 0, m 2 1, m 2 2, 0;
     0, 0, 0, 1]

/-- Model of `cgmath::Matrix4::from_translation`. -/
def from_translation (v : Fin 3 → ℝ) : Matrix (Fin 4) (Fin 4) ℝ :=
  !![1, 0, 0, v 0;
     0, 1, 0, v 1;
     0, 0, 1, v 2;
     0, 0, 0, 1]

/-- Model of `cgmath::perspective(Deg(fov), aspect, near, far)`: the standard
right-handed OpenGL perspective matrix, the vertical field of view given in
degrees. -/
noncomputable def perspectiveMat (fovDeg aspect near far : ℝ) :
    Matrix (Fin 4) (Fin 4) ℝ :=
  let f : ℝ := 1 / Real.tan (fovDeg * π / 180 / 2)
  !![f / aspect, 0, 0, 0;
     0, f, 0, 0;
     0, 0, (far + near) / (near - far), 2 * far * near / (near - far);
     0, 0, -1, 0]

/-- The `miniquad::KeyCode` values this program distinguishes: the four
movement keys, the quit key, and `Space` standing for any other key. -/
inductive KeyCode where
  | W | A | S | D | Escape | Space
deriving DecidableEq, Repr

/-- The mutable program state of `struct Stage` (GPU handles and the
`last_frame` timestamp externalised, `quit_signals` counting calls of
`window::quit()`). -/
structure Stage where
  camera_pos : Fin 3 → ℝ
  perspective : Matrix (Fin 4) (Fin 4) ℝ
  view : Matrix (Fin 4) (Fin 4) ℝ
  keys_down : Finset KeyCode
  rotate_x : ℝ
  rotate_y : ℝ
  fov : ℝ
  near : ℝ
  far : ℝ
  quit_signals : ℕ

/-- The state built by `Stage::new` (the window's screen size is an input of
the constructor). -/
noncomputable def Stage.new (screenW screenH : ℝ) : Stage where
  camera_pos := ![0, 0, 1]
  perspective := perspectiveMat 80 (screenW / screenH) 0.1 100
  view := 1
  keys_down := ∅
  rotate_x := 0
  rotate_y := 0
  fov := 80
  near := 0.1
  far := 100
  quit_signals := 0

/-- The vector `forward` computed at the top of `Stage::update`. -/
noncomputable def forwardOf (s : Stage) : Fin 3 → ℝ :=
  ![-Real.sin s.rotate_y, 0, -Real.cos s.rotate_y]

/-- The vector `right` computed at the top of `Stage::update`. -/
noncomputable def rightOf (s : Stage) : Fin 3 → ℝ :=
  ![Real.cos s.rotate_y, 0, -Real.sin s.rotate_y]

/-- The camera position after the four key-conditional moves of
`Stage::update`, given the elapsed seconds `dt`. -/
noncomputable def newPosition (s : Stage) (dt : ℝ) : Fin 3 → ℝ :=
  let forward := forwardOf s
  let right := rightOf s
  let p1 := if KeyCode.W ∈ s.keys_down then s.camera_pos + dt • forward
            else s.camera_pos
  let p2 := if KeyCode.A ∈ s.keys_down then p1 + dt • (-right) else p1
  let p3 := if KeyCode.S ∈ s.keys_down then p2 + dt • (-forward) else p2
  if KeyCode.D ∈ s.keys_down then p3 + dt • right else p3

/-- The world rotation built in `Stage::update`:
`Basis3::from_angle_y(rotate_y) * Basis3::from_angle_x(rotate_x)`, converted
to a 4×4 matrix. -/
noncomputable def cameraRotation (y x : ℝ) : Matrix (Fin 4) (Fin 4) ℝ :=
  mat3to4 (from_angle_y y * from_angle_x x)

/-- Model of `Stage::update` given the elapsed seconds `dt`: integrate the
held movement keys, then set `view` to the inverse of
`translate * rotate`; `none` models the panic of `.unwrap()` when the
inversion fails. -/
noncomputable def Stage.update (s : Stage) (dt : ℝ) : Option Stage :=
  (matInvert (from_translation (newPosition s dt) *
      cameraRotation s.rotate_y s.rotate_x)).map fun v =>
    { s with camera_pos := newPosition s dt, view := v }

/-- Model of `Stage::key_down_event`. -/
def Stage.key_down_event (s : Stage) (keycode : KeyCode) (rep : Bool) :
    Stage :=
  if rep then s
  else
    let s' := match keycode with
      | KeyCode.Escape => { s with quit_signals := s.quit_signals + 1 }
      | _ => s
    { s' with keys_down := insert keycode s'.keys_down }

/-- Model of `Stage::key_up_event`. -/
def Stage.key_up_event (s : Stage) (keycode : KeyCode) : Stage :=
  { s with keys_down := s.keys_down.erase keycode }

/-- Model of `Stage::resize_event`. -/
noncomputable def Stage.resize_event (s : Stage) (width height : ℝ) : Stage :=
  { s with perspective := perspectiveMat s.fov (width / height) s.near s.far }

/-- Model of `Stage::raw_mouse_motion`. -/
noncomputable def Stage.raw_mouse_motion (s : Stage) (dx dy : ℝ) : Stage :=
  { s with rotate_x := s.rotate_x + -dy * 0.01,
           rotate_y := s.rotate_y + -dx * 0.01 }

/-- Euclidean dot product on the 3-vectors of the embedding. -/
def dot3 (u v : Fin 3 → ℝ) : ℝ :=
  u 0 * v 0 + u 1 * v 1 + u 2 * v 2

/-- A concrete camera state holding the forward and strafe-right keys. -/
noncomputable def sampleStage : Stage where
  camera_pos := ![0, 0, 1]
  perspective := 1
  view := 1
  keys_down := {KeyCode.W, KeyCode.D}
  rotate_x := 0
  rotate_y := 0
  fov := 80
  near := 0.1
  far := 100
  quit_signals := 0

/-- A concrete camera state holding only the forward key, looking along the
initial yaw. -/
noncomputable def mouseStage : Stage where
  camera_pos := ![0, 0, 1]
  perspective := 1
  view := 1
  keys_down := {KeyCode.W}
  rotate_x := 0
  rotate_y := 0
  fov := 80
  near := 0.1
  far := 100
  quit_signals := 0

lemma det_from_translation (v : Fin 3 → ℝ) : (from_translation v).det = 1 := by
  simp [from_translation, Matrix.det_succ_row_zero, Fin.sum_univ_succ,
    Matrix.det_fin_three]

lemma det_from_angle_x (θ : ℝ) : (from_angle_x θ).det = 1 := by
  simp [from_angle_x, Matrix.det_fin_three]
  nlinarith [Real.sin_sq_add_cos_sq θ]

lemma det_from_angle_y (θ : ℝ) : (from_angle_y θ).det = 1 := by
  simp [from_angle_y, Matrix.det_fin_three]
  nlinarith [Real.sin_sq_add_cos_sq θ]

lemma det_mat3to4 (m : Matrix (Fin 3) (Fin 3) ℝ) :
    (mat3to4 m).det = m.det := by
  simp [mat3to4, Matrix.det_succ_row_zero, Fin.sum_univ_succ,
    Matrix.det_fin_three, Fin.succAbove]

lemma det_world (p : Fin 3 → ℝ) (y x : ℝ) :
    (from_translation p * cameraRotation y x).det = 1 := by
  rw [Matrix.det_mul, det_from_translation, cameraRotation, det_mat3to4,
    Matrix.det_mul, det_from_angle_y, det_from_angle_x]
  ring

lemma isUnit_det_world (p : Fin 3 → ℝ) (y x : ℝ) :
    IsUnit (from_translation p * cameraRotation y x).det := by
  rw [det_world]; exact isUnit_one

lemma update_eq (s : Stage) (dt : ℝ) :
    s.update dt = some { s with
      camera_pos := newPosition s dt,
      view := (from_translation (newPosition s dt) *
        cameraRotation s.rotate_y s.rotate_x)⁻¹ } := by
  unfold Stage.update matInvert
  rw [if_pos (isUnit_det_world _ _ _)]
  rfl

lemma newPosition_as_sum (s : Stage) (dt : ℝ) :
    newPosition s dt = s.camera_pos +
      ((if KeyCode.W ∈ s.keys_down then dt • forwardOf s else 0) +
       (if KeyCode.S ∈ s.keys_down then dt • (-forwardOf s) else 0) +
       (if KeyCode.D ∈ s.keys_down then dt • rightOf s else 0) +
       (if KeyCode.A ∈ s.keys_down then dt • (-rightOf s) else 0)) := by
  unfold newPosition
  by_cases hW : KeyCode.W ∈ s.keys_down <;>
  by_cases hA : KeyCode.A ∈ s.keys_down <;>
  by_cases hS : KeyCode.S ∈ s.keys_down <;>
  by_cases hD : KeyCode.D ∈ s.keys_down <;>
    simp only [hW, hA, hS, hD, if_true, if_false] <;>
    funext i <;>
    simp [Pi.add_apply, Pi.smul_apply, Pi.neg_apply, Pi.zero_apply,
      smul_eq_mul] <;>
    ring

/-- C1: on every per-frame update the view matrix stored by `Stage::update`
is the exact inverse of `translation(position) * rotation(yaw, pitch)`
(yaw about the world up axis, then pitch about the local right axis):
composing the stored view matrix with that world transform, on either side,
yields the identity. -/
theorem view_is_exact_inverse (s : Stage) (dt : ℝ) :
    (s.update dt).map (fun t => t.view *
      (from_translation t.camera_pos *
        cameraRotation t.rotate_y t.rotate_x)) = some 1 ∧
    (s.update dt).map (fun t =>
      (from_translation t.camera_pos *
        cameraRotation t.rotate_y t.rotate_x) * t.view) = some 1 := by
  rw [update_eq]
  refine ⟨?_, ?_⟩ <;> simp only [Option.map_some']
  · exact congrArg some (Matrix.nonsing_inv_mul _ (isUnit_det_world _ _ _))
  · exact congrArg some (Matrix.mul_nonsing_inv _ (isUnit_det_world _ _ _))

/-- C2: for every `dt ≥ 0` and every subset of held movement keys, one
update moves the camera by the sum of the per-key displacement vectors
(`forward` for W, `-forward` for S, `right` for D, `-right` for A), each
scaled by `dt`; with no movement key held the position is unchanged. -/
theorem position_update_is_key_sum (s : Stage) (dt : ℝ) (_hdt : 0 ≤ dt) :
    (s.update dt).map Stage.camera_pos = some (s.camera_pos +
      ((if KeyCode.W ∈ s.keys_down then dt • forwardOf s else 0) +
       (if KeyCode.S ∈ s.keys_down then dt • (-forwardOf s) else 0) +
       (if KeyCode.D ∈ s.keys_down then dt • rightOf s else 0) +
       (if KeyCode.A ∈ s.keys_down then dt • (-rightOf s) else 0))) ∧
    (KeyCode.W ∉ s.keys_down → KeyCode.A ∉ s.keys_down →
     KeyCode.S ∉ s.keys_down → KeyCode.D ∉ s.keys_down →
     (s.update dt).map Stage.camera_pos = some s.camera_pos) := by
  constructor
  · rw [update_eq, Option.map_some']
    exact congrArg some (newPosition_as_sum s dt)
  · intro hW hA hS hD
    rw [update_eq, Option.map_some']
    refine congrArg some ?_
    show newPosition s dt = s.camera_pos
    rw [newPosition_as_sum]
    simp [hW, hA, hS, hD]

/-- C2 witness: the theorem applied to a concrete state holding W and D with
`dt = 1`. -/
theorem position_update_is_key_sum_witness :
    (0 : ℝ) ≤ 1 ∧
    ((sampleStage.update 1).map Stage.camera_pos =
      some (sampleStage.camera_pos +
      ((if KeyCode.W ∈ sampleStage.keys_down then
          (1 : ℝ) • forwardOf sampleStage else 0) +
       (if KeyCode.S ∈ sampleStage.keys_down then
          (1 : ℝ) • (-forwardOf sampleStage) else 0) +
       (if KeyCode.D ∈ sampleStage.keys_down then
          (1 : ℝ) • rightOf sampleStage else 0) +
       (if KeyCode.A ∈ sampleStage.keys_down then
          (1 : ℝ) • (-rightOf sampleStage) else 0))) ∧
    (KeyCode.W ∉ sampleStage.keys_down → KeyCode.A ∉ sampleStage.keys_down →
     KeyCode.S ∉ sampleStage.keys_down → KeyCode.D ∉ sampleStage.keys_down →
     (sampleStage.update 1).map Stage.camera_pos =
       some sampleStage.camera_pos)) :=
  ⟨by norm_num, position_update_is_key_sum sampleStage 1 (by norm_num)⟩

/-- C3 counterexample: in the startup state built by `Stage::new` the stored
view matrix (the identity) is NOT the inverse of the camera's world
transform, because the camera starts at position `(0, 0, 1)`. -/
theorem initial_view_not_inverse :
    (Stage.new 800 600).view *
      (from_translation (Stage.new 800 600).camera_pos *
        cameraRotation (Stage.new 800 600).rotate_y
          (Stage.new 800 600).rotate_x) ≠ 1 := by
  intro h
  have h23 := congrFun (congrFun h 2) 3
  simp [Stage.new, cameraRotation, mat3to4, from_angle_x, from_angle_y,
    from_translation, Matrix.mul_apply, Fin.sum_univ_four,
    Matrix.one_apply] at h23

/-- C3 (amended): after every per-frame update the stored view matrix equals
the matrix inverse of `translation(position) * rotation(yaw, pitch)`; the
invariant holds for every state reached through `Stage::update`, though not
for the startup state, whose view matrix is the identity. -/
theorem view_stored_as_inverse (s : Stage) (dt : ℝ) :
    (s.update dt).map Stage.view =
      (s.update dt).map (fun t => (from_translation t.camera_pos *
        cameraRotation t.rotate_y t.rotate_x)⁻¹) := by
  rw [update_eq]; rfl

/-- C4: the per-frame update computes
`forward = (-sin yaw, 0, -cos yaw)` and `right = (cos yaw, 0, -sin yaw)`;
both are unit length, they are mutually perpendicular, and neither depends
on the pitch `rotate_x`. -/
theorem forward_right_formulas (s : Stage) :
    forwardOf s = ![-Real.sin s.rotate_y, 0, -Real.cos s.rotate_y] ∧
    rightOf s = ![Real.cos s.rotate_y, 0, -Real.sin s.rotate_y] ∧
    dot3 (forwardOf s) (forwardOf s) = 1 ∧
    dot3 (rightOf s) (rightOf s) = 1 ∧
    dot3 (forwardOf s) (rightOf s) = 0 ∧
    (∀ p : ℝ, forwardOf { s with rotate_x := p } = forwardOf s ∧
      rightOf { s with rotate_x := p } = rightOf s) := by
  refine ⟨rfl, rfl, ?_, ?_, ?_, fun p => ⟨rfl, rfl⟩⟩ <;>
    simp [dot3, forwardOf, rightOf] <;>
    nlinarith [Real.sin_sq_add_cos_sq s.rotate_y]

/-- C5: every mouse-delta event updates yaw to `yaw - dx * 0.01` and pitch
to `pitch - dy * 0.01` with the fixed sensitivity `0.01`, and no clamping is
applied: suitable deltas drive the pitch beyond `π/2` and below `-π/2`. -/
theorem mouse_motion_updates_angles (s : Stage) (dx dy : ℝ) :
    (s.raw_mouse_motion dx dy).rotate_y = s.rotate_y - dx * 0.01 ∧
    (s.raw_mouse_motion dx dy).rotate_x = s.rotate_x - dy * 0.01 ∧
    (∃ d : ℝ, (s.raw_mouse_motion 0 d).rotate_x > π / 2) ∧
    (∃ d : ℝ, (s.raw_mouse_motion 0 d).rotate_x < -(π / 2)) := by
  refine ⟨by simp [Stage.raw_mouse_motion]; ring,
          by simp [Stage.raw_mouse_motion]; ring, ?_, ?_⟩
  · refine ⟨-100 * (π / 2 + 1 - s.rotate_x), ?_⟩
    simp only [Stage.raw_mouse_motion]
    norm_num
    linarith
  · refine ⟨100 * (π / 2 + 1 + s.rotate_x), ?_⟩
    simp only [Stage.raw_mouse_motion]
    norm_num
    linarith

/-- C6: if mouse deltas drive the yaw to exactly `π/2` before an update in
which only the forward key is held, that update moves the camera by
`dt • (-1, 0, 0)`: the forward vector is recomputed from the updated yaw
before movement integration in the same frame. -/
theorem forward_uses_updated_yaw (s : Stage) (dx dy dt : ℝ)
    (hyaw : (s.raw_mouse_motion dx dy).rotate_y = π / 2)
    (hW : KeyCode.W ∈ s.keys_down) (hA : KeyCode.A ∉ s.keys_down)
    (hS : KeyCode.S ∉ s.keys_down) (hD : KeyCode.D ∉ s.keys_down) :
    ((s.raw_mouse_motion dx dy).update dt).map Stage.camera_pos =
      some (s.camera_pos + dt • ![(-1 : ℝ), 0, 0]) := by
  rw [update_eq, Option.map_some']
  refine congrArg some ?_
  show newPosition (s.raw_mouse_motion dx dy) dt = _
  have hkeys : (s.raw_mouse_motion dx dy).keys_down = s.keys_down := rfl
  have hpos : (s.raw_mouse_motion dx dy).camera_pos = s.camera_pos := rfl
  unfold newPosition forwardOf rightOf
  rw [hkeys, hpos, hyaw]
  simp only [hW, hA, hS, hD, if_true, if_false,
    Real.sin_pi_div_two, Real.cos_pi_div_two]
  funext i
  fin_cases i <;> simp

lemma mouseStage_yaw :
    (mouseStage.raw_mouse_motion (-(50 * π)) 0).rotate_y = π / 2 := by
  show mouseStage.rotate_y + -(-(50 * π)) * 0.01 = π / 2
  show (0 : ℝ) + -(-(50 * π)) * 0.01 = π / 2
  norm_num
  ring

lemma mouseStage_keys :
    KeyCode.W ∈ mouseStage.keys_down ∧ KeyCode.A ∉ mouseStage.keys_down ∧
    KeyCode.S ∉ mouseStage.keys_down ∧ KeyCode.D ∉ mouseStage.keys_down := by
  refine ⟨?_, ?_, ?_, ?_⟩ <;> simp [mouseStage]

/-- C6 witness: the theorem applied to a concrete state with yaw 0 holding
only W, the mouse delta `dx = -50π` raising the yaw exactly to `π/2`, and
`dt = 1`. -/
theorem forward_uses_updated_yaw_witness :
    (mouseStage.raw_mouse_motion (-(50 * π)) 0).rotate_y = π / 2 ∧
    KeyCode.W ∈ mouseStage.keys_down ∧ KeyCode.A ∉ mouseStage.keys_down ∧
    KeyCode.S ∉ mouseStage.keys_down ∧ KeyCode.D ∉ mouseStage.keys_down ∧
    ((mouseStage.raw_mouse_motion (-(50 * π)) 0).update 1).map
        Stage.camera_pos =
      some (mouseStage.camera_pos + (1 : ℝ) • ![(-1 : ℝ), 0, 0]) :=
  ⟨mouseStage_yaw, mouseStage_keys.1, mouseStage_keys.2.1,
   mouseStage_keys.2.2.1, mouseStage_keys.2.2.2,
   forward_uses_updated_yaw mouseStage (-(50 * π)) 0 1 mouseStage_yaw
     mouseStage_keys.1 mouseStage_keys.2.1 mouseStage_keys.2.2.1
     mouseStage_keys.2.2.2⟩

/-- C7: a resize event with width `w` and height `h` rebuilds the projection
matrix from the unchanged field of view, near and far planes and the new
aspect `w / h`, and leaves every other field of the state unchanged. -/
theorem resize_rebuilds_projection_only (s : Stage) (w h : ℝ) :
    (s.resize_event w h).perspective =
      perspectiveMat s.fov (w / h) s.near s.far ∧
    (s.resize_event w h).camera_pos = s.camera_pos ∧
    (s.resize_event w h).rotate_y = s.rotate_y ∧
    (s.resize_event w h).rotate_x = s.rotate_x ∧
    (s.resize_event w h).view = s.view ∧
    (s.resize_event w h).keys_down = s.keys_down ∧
    (s.resize_event w h).fov = s.fov ∧
    (s.resize_event w h).near = s.near ∧
    (s.resize_event w h).far = s.far ∧
    (s.resize_event w h).quit_signals = s.quit_signals :=
  ⟨rfl, rfl, rfl, rfl, rfl, rfl, rfl, rfl, rfl, rfl⟩

/-- C8: an auto-repeat key-down event leaves the whole state unchanged;
pressing the same key a second time without releasing it leaves the key set
unchanged (one entry per held key); a single non-repeat Escape press signals
the shutdown exactly once; a key-up removes the key unconditionally. -/
theorem key_event_deduplication (s : Stage) (k : KeyCode) :
    s.key_down_event k true = s ∧
    ((s.key_down_event k false).key_down_event k false).keys_down =
      (s.key_down_event k false).keys_down ∧
    (s.key_down_event KeyCode.Escape false).quit_signals =
      s.quit_signals + 1 ∧
    (s.key_up_event k).keys_down = s.keys_down.erase k ∧
    k ∉ (s.key_up_event k).keys_down := by
  refine ⟨rfl, ?_, rfl, rfl, Finset.not_mem_erase k s.keys_down⟩
  cases k <;> simp [Stage.key_down_event, Finset.insert_idem]

/-- C9: for every camera position, yaw and pitch the matrix
`translation(position) * rotation(yaw, pitch)` has an invertible
determinant, so the inversion in `Stage::update` never hits its failure
branch: the embedded update always returns `some`. -/
theorem update_never_fails (p : Fin 3 → ℝ) (y x : ℝ) (s : Stage) (dt : ℝ) :
    IsUnit (from_translation p * cameraRotation y x).det ∧
    (s.update dt).isSome = true := by
  refine ⟨isUnit_det_world p y x, ?_⟩
  rw [update_eq]; rfl

/-- C10: every non-repeat key-down stores its key in the key set, whichever
key it is; in particular the Escape press that signals shutdown is itself
stored, and a key that is none of the four movement keys (here `Space`) is
stored but ignored by the movement integration. -/
theorem keydown_stores_any_key (s : Stage) (k : KeyCode) (dt : ℝ) :
    k ∈ (s.key_down_event k false).keys_down ∧
    KeyCode.Escape ∈ (s.key_down_event KeyCode.Escape false).keys_down ∧
    (s.key_down_event KeyCode.Escape false).quit_signals =
      s.quit_signals + 1 ∧
    newPosition { s with keys_down := insert KeyCode.Space s.keys_down } dt =
      newPosition s dt := by
  refine ⟨?_, ?_, rfl, ?_⟩
  · cases k <;> simp [Stage.key_down_event]
  · simp [Stage.key_down_event]
  · unfold newPosition forwardOf rightOf
    simp [Finset.mem_insert]
